import Mathlib

/-!
# Verification of the caption timing and chunking engine

A shallow embedding of the timing core of `src/main.py`:

* `splitWords` / `joinWords` model Python's `str.split()` (split on runs of
  whitespace, no empty words) and `" ".join(...)`.
* `pySlice` models Python list slicing `l[a:b]`, including negative indices.
* `ceilDiv` / `truncDiv` model `math.ceil(a / b)` and `int(a / b)` for the
  exact (real-valued) quotient `a / b` of two integers: the source computes
  these quotients with Python's float division, which is exact at every
  magnitude the timing engine handles, so the embedding uses the exact
  quotient throughout.
* `chunkTimelineEntry` embeds `chunk_timeline_entry` (the Caption Chunker).
* `buildChunkedTimeline` embeds `build_chunked_timeline` (the Timeline
  Builder).
* `buildTimeline` embeds the cursor loop of `synthesize_script_audio`
  (the Segment Durer): the audio length used at each step of the loop is the
  segment's measured `duration_ms` field.

Python exceptions are modelled by the `Except` error channel: dividing by
zero raises `PyError.zeroDivisionError`, and indexing a dict at a missing
key raises `PyError.keyError`.
-/

namespace TaleFlow

/-- One word: a run of non-whitespace characters. -/
abbrev Word := List Char

/-- Helper for `splitWords`: `acc` holds the word being scanned, reversed. -/
def splitWordsAux (acc : List Char) : List Char → List Word
  | [] => if acc.isEmpty then [] else [acc.reverse]
  | c :: cs =>
    if c.isWhitespace then
      if acc.isEmpty then splitWordsAux [] cs
      else acc.reverse :: splitWordsAux [] cs
    else splitWordsAux (c :: acc) cs

/-- Python `text.split()`: split on whitespace runs, dropping empty pieces. -/
def splitWords (s : List Char) : List Word :=
  splitWordsAux [] s

/-- Python `" ".join(ws)`: interleave a single space between the words. -/
def joinWords : List Word → List Char
  | [] => []
  | [w] => w
  | w :: ws => w ++ ' ' :: joinWords ws

/-- Effective index of a Python slice bound `a` on a list of length `m`:
negative indices count from the end, everything is clamped to `[0, m]`. -/
def pySliceIdx (m : ℕ) (a : ℤ) : ℕ :=
  if a < 0 then ((m : ℤ) + a).toNat else min a.toNat m

/-- Python slice `l[a:b]`. -/
def pySlice (l : List α) (a b : ℤ) : List α :=
  (l.take (pySliceIdx l.length b)).drop (pySliceIdx l.length a)

/-- `math.ceil(a / b)` for the exact quotient of integers `a`, `b ≠ 0`:
the ceiling is the negated flooring division of `-a` by `b`. -/
def ceilDiv (a b : ℤ) : ℤ :=
  -(Int.fdiv (-a) b)

/-- `int(a / b)` for the exact quotient of integers `a`, `b ≠ 0`:
Python's `int()` truncates toward zero, which is `Int.tdiv`. -/
def truncDiv (a b : ℤ) : ℤ :=
  Int.tdiv a b

/-- Runtime errors the embedded code can raise. -/
inductive PyError where
  | zeroDivisionError
  | keyError
deriving DecidableEq

/-- A timeline entry / caption chunk: the dict
`{"type": ..., "text": ..., "start_ms": ..., "end_ms": ...}`.
The `type` key may be absent (`type? = none`), since `chunk_timeline_entry`
reads it with `entry.get("type", "line")`. -/
structure Entry where
  type? : Option String
  text : List Char
  start_ms : ℤ
  end_ms : ℤ
deriving DecidableEq

/-- Embedding of `chunk_timeline_entry` (src/main.py lines 113-149), the
Caption Chunker.  Mirrors the source line by line: split the text into
words; zero words returns the entry unchanged in a singleton list;
`num_chunks = max(1, math.ceil(len(words) / words_per_chunk))`, where a
zero `words_per_chunk` raises `ZeroDivisionError`; the per-chunk time share
is the exact quotient `chunk_ms = total_ms / num_chunks`; for each
`i < num_chunks` the word slice `words[i*wpc : min((i+1)*wpc, len(words))]`
is joined with single spaces (an empty slice is skipped), and the chunk gets
`start_ms = entry.start_ms + int(i * chunk_ms)` and
`end_ms = entry.start_ms + int((i+1) * chunk_ms)`, so
`int(i * chunk_ms) = truncDiv (i * total_ms) num_chunks`. -/
def chunkCore (entry : Entry) (words_per_chunk : ℤ) : List Entry :=
  let words := splitWords entry.text
  let num_chunks : ℤ := max 1 (ceilDiv (words.length : ℤ) words_per_chunk)
  let total_ms : ℤ := entry.end_ms - entry.start_ms
  (List.range num_chunks.toNat).filterMap fun (i : ℕ) =>
    let start_idx : ℤ := (i : ℤ) * words_per_chunk
    let end_idx : ℤ := min (((i : ℤ) + 1) * words_per_chunk) (words.length : ℤ)
    let chunk_words := pySlice words start_idx end_idx
    if chunk_words.isEmpty then none
    else some
      { type? := some (entry.type?.getD "line"),
        text := joinWords chunk_words,
        start_ms := entry.start_ms + truncDiv ((i : ℤ) * total_ms) num_chunks,
        end_ms := entry.start_ms + truncDiv (((i : ℤ) + 1) * total_ms) num_chunks }

/-- Control flow of `chunk_timeline_entry`: the zero-word degenerate case
returns the entry unchanged; otherwise `ceil(len(words) / words_per_chunk)`
divides by `words_per_chunk`, raising on zero; otherwise the chunk loop
(`chunkCore`) runs. -/
def chunkTimelineEntry (entry : Entry) (words_per_chunk : ℤ) :
    Except PyError (List Entry) :=
  if (splitWords entry.text).isEmpty then .ok [entry]
  else if words_per_chunk = 0 then .error .zeroDivisionError
  else .ok (chunkCore entry words_per_chunk)

/-- The chunk list of the Caption Chunker on a non-erroring input. -/
def chunkList (entry : Entry) (words_per_chunk : ℤ) : List Entry :=
  ((chunkTimelineEntry entry words_per_chunk).toOption).getD []

/-- Embedding of `build_chunked_timeline` (src/main.py lines 152-159): for
each entry, `words_per_chunk = 4` if `entry["type"]` is `"hook"` or
`"closer"`, else `3`; the chunk lists are concatenated in entry order.
The direct indexing `entry["type"]` raises `KeyError` when absent. -/
def buildChunkedTimeline : List Entry → Except PyError (List Entry)
  | [] => .ok []
  | e :: rest => do
    let t ← match e.type? with
      | some t => Except.ok t
      | none => Except.error PyError.keyError
    let cs ← chunkTimelineEntry e (if t = "hook" ∨ t = "closer" then 4 else 3)
    let rest' ← buildChunkedTimeline rest
    Except.ok (cs ++ rest')

/-- One element of `segments_meta` in `synthesize_script_audio`: a segment
with its role, text and the measured audio duration `len(audio)` in ms. -/
structure SegMeta where
  type : String
  text : List Char
  duration_ms : ℤ
deriving DecidableEq

/-- The cursor loop of `synthesize_script_audio` (src/main.py lines 221-247),
the Segment Durer: each segment gets `start_ms = cursor`,
`end_ms = cursor + len(audio)`, and the cursor advances to `end_ms`.
`len(audio)` is the segment's measured `duration_ms`. -/
def buildTimelineAux (cursor : ℤ) : List SegMeta → List Entry
  | [] => []
  | seg :: rest =>
    { type? := some seg.type, text := seg.text,
      start_ms := cursor, end_ms := cursor + seg.duration_ms }
      :: buildTimelineAux (cursor + seg.duration_ms) rest

/-- The Segment Durer started at timeline origin 0. -/
def buildTimeline (metas : List SegMeta) : List Entry :=
  buildTimelineAux 0 metas

end TaleFlow

deriving instance DecidableEq for Except

namespace TaleFlow

/-- Default entry used with `List.getD` in indexed statements. -/
def dEntry : Entry := { type? := none, text := [], start_ms := 0, end_ms := 0 }

/-- Default segment used with `List.getD` in indexed statements. -/
def dMeta : SegMeta := { type := "line", text := [], duration_ms := 0 }

/-- A well-formed word: non-empty and free of whitespace. -/
def IsWord (w : List Char) : Prop :=
  w ≠ [] ∧ ∀ c ∈ w, c.isWhitespace = false

/-- The number of chunks `max(1, ceil(len(words) / words_per_chunk))` of the
Caption Chunker, as a natural number, for `words_per_chunk = w ≥ 1`. -/
def nChunks (e : Entry) (w : ℕ) : ℕ :=
  (max 1 (ceilDiv ((splitWords e.text).length : ℤ) (w : ℤ))).toNat

/-- The chunk the Caption Chunker emits at index `i` out of `q`, with
`words_per_chunk = w`: words `[i*w, (i+1)*w)` and the truncated even time
share. -/
def chunkAt (e : Entry) (w q i : ℕ) : Entry :=
  { type? := some (e.type?.getD "line"),
    text := joinWords (((splitWords e.text).drop (i * w)).take w),
    start_ms := e.start_ms + truncDiv ((i : ℤ) * (e.end_ms - e.start_ms)) (q : ℤ),
    end_ms := e.start_ms + truncDiv (((i : ℤ) + 1) * (e.end_ms - e.start_ms)) (q : ℤ) }

/-- The §8 scenario segment `{text: "one two three four five", 0, 5000}`. -/
def scenarioEntry : Entry :=
  { type? := some "line", text := "one two three four five".data,
    start_ms := 0, end_ms := 5000 }

/-- A 12-word text used by the role-based cadence scenario. -/
def text12 : List Char := "a b c d e f g h i j k l".data

/-- A 12-word hook segment. -/
def hook12 : Entry :=
  { type? := some "hook", text := text12, start_ms := 0, end_ms := 6000 }

/-- A 12-word body line of the same duration as `hook12`. -/
def line12 : Entry :=
  { type? := some "line", text := text12, start_ms := 6000, end_ms := 12000 }

/-- An entry with empty text (zero words). -/
def emptyEntry : Entry :=
  { type? := some "line", text := [], start_ms := 0, end_ms := 1000 }

/-- A five-word segment used to probe `words_per_chunk ≤ 0`. -/
def fiveWordEntry : Entry :=
  { type? := some "line", text := "a b c d e".data, start_ms := 0, end_ms := 1000 }

/-- A three-word entry whose record has no `type` key. -/
def untypedEntry : Entry :=
  { type? := none, text := "x y z".data, start_ms := 10, end_ms := 40 }

/-- A segment list with a negative measured duration. -/
def badMeta : SegMeta :=
  { type := "line", text := "bad".data, duration_ms := -5 }

/-- Two ordinary segments used as a witness input for the Segment Durer. -/
def metasW : List SegMeta :=
  [{ type := "hook", text := "hi there".data, duration_ms := 1200 },
   { type := "line", text := "a b".data, duration_ms := 800 },
   { type := "closer", text := "the end".data, duration_ms := 700 }]

/-- Sum of the first `i` measured durations: the cursor value of the
Segment Durer before segment `i`. -/
def prefixDur (metas : List SegMeta) (i : ℕ) : ℤ :=
  ((metas.take i).map SegMeta.duration_ms).sum

/-- Scanning a whitespace-free prefix just accumulates it (reversed). -/
theorem splitWordsAux_append (w : List Char) (hw : ∀ c ∈ w, c.isWhitespace = false) :
    ∀ (acc l : List Char), splitWordsAux acc (w ++ l) = splitWordsAux (w.reverse ++ acc) l := by
  induction w with
  | nil => intro acc l; simp
  | cons c cs ih =>
    intro acc l
    have hc : c.isWhitespace = false := hw c (by simp)
    have hcs : ∀ d ∈ cs, d.isWhitespace = false := fun d hd => hw d (by simp [hd])
    simp only [List.cons_append, splitWordsAux, hc, Bool.false_eq_true, if_false,
      List.reverse_cons, List.append_assoc, List.singleton_append]
    exact ih hcs (c :: acc) l

/-- Splitting a single well-formed word yields just that word. -/
theorem splitWords_single (w : List Char) (hw : IsWord w) :
    splitWords w = [w] := by
  obtain ⟨hne, hws⟩ := hw
  have h := splitWordsAux_append w hws [] []
  simp only [List.append_nil] at h
  unfold splitWords
  rw [h]
  simp only [splitWordsAux, List.isEmpty_eq_true, List.reverse_eq_nil_iff]
  rw [if_neg hne, List.reverse_reverse]

/-- Splitting a well-formed word followed by a space peels off that word. -/
theorem splitWords_word_space (w : List Char) (hw : IsWord w) (t : List Char) :
    splitWords (w ++ ' ' :: t) = w :: splitWords t := by
  obtain ⟨hne, hws⟩ := hw
  unfold splitWords
  rw [splitWordsAux_append w hws [] (' ' :: t)]
  simp only [List.append_nil, splitWordsAux]
  have hsp : (' ' : Char).isWhitespace = true := by decide
  rw [if_pos hsp]
  simp only [List.isEmpty_eq_true, List.reverse_eq_nil_iff]
  rw [if_neg hne, List.reverse_reverse]

/-- Every word produced by `splitWordsAux` is non-empty and whitespace-free. -/
theorem splitWordsAux_isWord :
    ∀ (l acc : List Char), (∀ c ∈ acc, c.isWhitespace = false) →
      ∀ w ∈ splitWordsAux acc l, IsWord w := by
  intro l
  induction l with
  | nil =>
    intro acc hacc w hw
    simp only [splitWordsAux] at hw
    by_cases h : acc.isEmpty
    · simp [h] at hw
    · rw [if_neg h] at hw
      simp only [List.mem_singleton] at hw
      subst hw
      refine ⟨fun hrev => h ?_, fun c hc => hacc c (List.mem_reverse.mp hc)⟩
      rw [List.isEmpty_eq_true, ← List.reverse_eq_nil_iff, hrev]
  | cons c cs ih =>
    intro acc hacc w hw
    simp only [splitWordsAux] at hw
    by_cases hc : c.isWhitespace
    · rw [if_pos hc] at hw
      by_cases h : acc.isEmpty
      · rw [if_pos h] at hw
        exact ih [] (by simp) w hw
      · rw [if_neg h] at hw
        rcases List.mem_cons.mp hw with rfl | hw2
        · refine ⟨fun hrev => h ?_, fun d hd => hacc d (List.mem_reverse.mp hd)⟩
          rw [List.isEmpty_eq_true, ← List.reverse_eq_nil_iff, hrev]
        · exact ih [] (by simp) w hw2
    · rw [if_neg hc] at hw
      refine ih (c :: acc) ?_ w hw
      intro d hd
      rcases List.mem_cons.mp hd with rfl | hd
      · exact Bool.not_eq_true _ ▸ (by simpa using hc)
      · exact hacc d hd

/-- Every word of a split is well formed. -/
theorem splitWords_isWord (s : List Char) : ∀ w ∈ splitWords s, IsWord w :=
  splitWordsAux_isWord s [] (by simp)

/-- Split/join round trip on a non-empty list of well-formed words. -/
theorem splitWords_joinWords (ws : List Word) (h : ∀ w ∈ ws, IsWord w) (hne : ws ≠ []) :
    splitWords (joinWords ws) = ws := by
  induction ws with
  | nil => exact absurd rfl hne
  | cons w vs ih =>
    cases vs with
    | nil =>
      simp only [joinWords]
      exact splitWords_single w (h w (by simp))
    | cons v us =>
      have hjoin : joinWords (w :: v :: us) = w ++ ' ' :: joinWords (v :: us) := rfl
      rw [hjoin, splitWords_word_space w (h w (by simp)) (joinWords (v :: us))]
      rw [ih (fun u hu => h u (List.mem_cons_of_mem _ hu)) (by simp)]

/-- A join of words starts and ends without whitespace and is non-empty. -/
theorem joinWords_ne_nil (ws : List Word) (h : ∀ w ∈ ws, IsWord w) (hne : ws ≠ []) :
    joinWords ws ≠ [] := by
  cases ws with
  | nil => exact absurd rfl hne
  | cons w vs =>
    cases vs with
    | nil => exact (h w (by simp)).1
    | cons v us =>
      have hjoin : joinWords (w :: v :: us) = w ++ ' ' :: joinWords (v :: us) := rfl
      rw [hjoin]
      simp only [ne_eq, List.append_eq_nil, not_and]
      intro _ hcons
      exact List.cons_ne_nil _ _ hcons

/-- `ceilDiv` of naturals, positive divisor: value bounds of the ceiling. -/
theorem ceilDiv_bounds (m w : ℕ) (hw : 1 ≤ w) (hm : 1 ≤ m) :
    1 ≤ ceilDiv (m : ℤ) (w : ℤ) ∧
      (m : ℤ) ≤ ceilDiv (m : ℤ) (w : ℤ) * (w : ℤ) ∧
      ceilDiv (m : ℤ) (w : ℤ) * (w : ℤ) < (m : ℤ) + (w : ℤ) := by
  have hw0 : (0 : ℤ) < (w : ℤ) := by exact_mod_cast hw
  have hwne : (w : ℤ) ≠ 0 := ne_of_gt hw0
  have hceil : ceilDiv (m : ℤ) (w : ℤ) = -((-(m : ℤ)) / (w : ℤ)) := by
    unfold ceilDiv
    rw [Int.fdiv_eq_ediv _ (le_of_lt hw0)]
  set d : ℤ := (-(m : ℤ)) / (w : ℤ) with hd
  set r : ℤ := (-(m : ℤ)) % (w : ℤ) with hr
  have hdr : (w : ℤ) * d + r = -(m : ℤ) := Int.ediv_add_emod _ _
  have hr0 : 0 ≤ r := Int.emod_nonneg _ hwne
  have hrw : r < (w : ℤ) := Int.emod_lt_of_pos _ hw0
  have hQw : ceilDiv (m : ℤ) (w : ℤ) * (w : ℤ) = (m : ℤ) + r := by
    rw [hceil]
    nlinarith [hdr]
  have hm' : (1 : ℤ) ≤ (m : ℤ) := by exact_mod_cast hm
  refine ⟨?_, by linarith, by linarith⟩
  by_contra hlt
  push_neg at hlt
  have hQ0 : ceilDiv (m : ℤ) (w : ℤ) ≤ 0 := by omega
  have : ceilDiv (m : ℤ) (w : ℤ) * (w : ℤ) ≤ 0 :=
    mul_nonpos_iff.mpr (Or.inr ⟨hQ0, le_of_lt hw0⟩)
  linarith

/-- `ceilDiv` with a negative divisor and non-negative dividend is nonpositive. -/
theorem ceilDiv_nonpos (m : ℕ) (b : ℤ) (hb : b < 0) : ceilDiv (m : ℤ) b ≤ 0 := by
  obtain ⟨k, rfl⟩ := Int.eq_negSucc_of_lt_zero hb
  unfold ceilDiv
  rw [neg_nonpos]
  cases m with
  | zero => simp [Int.fdiv]
  | succ n =>
    have : -((n + 1 : ℕ) : ℤ) = Int.negSucc n := rfl
    rw [this]
    simp only [Int.fdiv]
    exact Int.ofNat_nonneg _

/-- `ceilDiv` agrees with the rational ceiling for a positive divisor. -/
theorem ceilDiv_eq_rat_ceil (a : ℕ) (b : ℤ) (hb : 0 < b) :
    ceilDiv (a : ℤ) b = ⌈(a : ℚ) / (b : ℚ)⌉ := by
  obtain ⟨n, rfl⟩ : ∃ n : ℕ, b = (n : ℤ) := ⟨b.toNat, (Int.toNat_of_nonneg (le_of_lt hb)).symm⟩
  have hcast : ((a : ℚ) / (((n : ℤ) : ℤ) : ℚ)) = -(((-(a : ℤ) : ℤ) : ℚ) / ((n : ℕ) : ℚ)) := by
    push_cast
    ring
  rw [hcast, Int.ceil_neg, Rat.floor_intCast_div_natCast]
  unfold ceilDiv
  rw [Int.fdiv_eq_ediv _ (le_of_lt hb)]

/-- Truncating division by a positive divisor is monotone on non-negative
numerators. -/
theorem truncDiv_le_truncDiv {a b c : ℤ} (ha : 0 ≤ a) (hab : a ≤ b) (hc : 0 < c) :
    truncDiv a c ≤ truncDiv b c := by
  unfold truncDiv
  rw [Int.tdiv_eq_ediv ha (le_of_lt hc), Int.tdiv_eq_ediv (le_trans ha hab) (le_of_lt hc)]
  exact Int.ediv_le_ediv hc hab

/-- `int(0 / c) = 0`. -/
theorem truncDiv_zero_left (c : ℤ) : truncDiv 0 c = 0 :=
  Int.zero_tdiv c

/-- `int((c * t) / c) = t` for `c ≠ 0`. -/
theorem truncDiv_mul_cancel {c : ℤ} (t : ℤ) (hc : c ≠ 0) : truncDiv (c * t) c = t :=
  Int.mul_tdiv_cancel_left t hc

/-- A `filterMap` whose function never rejects is a `map`. -/
theorem filterMap_eq_map_of_some {α β : Type} (l : List α) (f : α → Option β) (g : α → β)
    (h : ∀ a ∈ l, f a = some (g a)) : l.filterMap f = l.map g := by
  induction l with
  | nil => rfl
  | cons a as ih =>
    rw [List.filterMap_cons, h a (by simp), List.map_cons,
      ih (fun x hx => h x (List.mem_cons_of_mem _ hx))]

/-- Indexing a map over `List.range`. -/
theorem getD_map_range {α : Type} (f : ℕ → α) (q i : ℕ) (h : i < q) (d : α) :
    ((List.range q).map f).getD i d = f i := by
  rw [List.getD_eq_getElem?_getD, List.getElem?_map, List.getElem?_range h]
  rfl

/-- Bounds for the chunk count of a non-degenerate entry. -/
theorem nChunks_spec (e : Entry) (w : ℕ) (hw : 1 ≤ w) (hne : splitWords e.text ≠ []) :
    1 ≤ nChunks e w ∧
      (splitWords e.text).length ≤ nChunks e w * w ∧
      nChunks e w * w < (splitWords e.text).length + w ∧
      ((nChunks e w : ℕ) : ℤ) = max 1 (ceilDiv ((splitWords e.text).length : ℤ) (w : ℤ)) := by
  set m : ℕ := (splitWords e.text).length with hm
  have hm1 : 1 ≤ m := List.length_pos.mpr hne
  obtain ⟨hq1, hql, hqu⟩ := ceilDiv_bounds m w hw hm1
  have hmax : max 1 (ceilDiv (m : ℤ) (w : ℤ)) = ceilDiv (m : ℤ) (w : ℤ) := max_eq_right hq1
  have hcast : ((nChunks e w : ℕ) : ℤ) = ceilDiv (m : ℤ) (w : ℤ) := by
    unfold nChunks
    rw [← hm, hmax, Int.toNat_of_nonneg (by linarith)]
  refine ⟨?_, ?_, ?_, by rw [hcast, hmax]⟩
  · have : (1 : ℤ) ≤ ((nChunks e w : ℕ) : ℤ) := by rw [hcast]; exact hq1
    exact_mod_cast this
  · have : (m : ℤ) ≤ ((nChunks e w * w : ℕ) : ℤ) := by push_cast [hcast]; exact hql
    exact_mod_cast this
  · have : ((nChunks e w * w : ℕ) : ℤ) < ((m + w : ℕ) : ℤ) := by push_cast [hcast]; exact hqu
    exact_mod_cast this

/-- The Python slice `words[i*w : min((i+1)*w, len(words))]` is
`(words.drop (i*w)).take w` whenever chunk `i` starts inside the list. -/
theorem pySlice_chunk {α : Type} (l : List α) (w i : ℕ) (hiw : i * w < l.length) :
    pySlice l ((i : ℤ) * (w : ℤ)) (min (((i : ℤ) + 1) * (w : ℤ)) (l.length : ℤ)) =
      (l.drop (i * w)).take w := by
  set m : ℕ := l.length with hm
  have hsw : (i + 1) * w = i * w + w := by ring
  have hstart : pySliceIdx m ((i : ℤ) * (w : ℤ)) = i * w := by
    unfold pySliceIdx
    rw [if_neg (not_lt.mpr (by positivity))]
    have h1 : ((i : ℤ) * (w : ℤ)).toNat = i * w := by
      rw [show (i : ℤ) * (w : ℤ) = ((i * w : ℕ) : ℤ) by push_cast; ring, Int.toNat_ofNat]
    rw [h1]
    exact min_eq_left (le_of_lt hiw)
  have hcast2 : ((i : ℤ) + 1) * (w : ℤ) = (((i + 1) * w : ℕ) : ℤ) := by push_cast; ring
  have hend : pySliceIdx m (min (((i : ℤ) + 1) * (w : ℤ)) (m : ℤ)) = min ((i + 1) * w) m := by
    unfold pySliceIdx
    rw [hcast2, ← Nat.cast_min]
    rw [if_neg (not_lt.mpr (Int.natCast_nonneg _))]
    rw [Int.toNat_ofNat]
    exact min_eq_left (min_le_right _ _)
  unfold pySlice
  rw [← hm, hstart, hend]
  rcases le_or_lt ((i + 1) * w) m with hle | hlt
  · rw [min_eq_left hle, List.take_drop, hsw]
  · rw [min_eq_right (le_of_lt hlt), List.take_length, List.take_drop,
      List.take_of_length_le (by rw [← hsw, ← hm]; exact le_of_lt hlt)]

/-- Chunk `i` of a non-degenerate entry has a non-empty word slice. -/
theorem chunk_slice_ne_nil {α : Type} (l : List α) (w i : ℕ) (hw : 1 ≤ w)
    (hiw : i * w < l.length) : (l.drop (i * w)).take w ≠ [] := by
  intro h
  rcases List.take_eq_nil_iff.mp h with h1 | h2
  · omega
  · exact absurd (List.drop_eq_nil_iff.mp h2) (by omega)

/-- The chunk loop of a non-degenerate entry drops nothing: it is exactly
the map of `chunkAt` over the chunk indices. -/
theorem chunkCore_eq_map (e : Entry) (w : ℕ) (hw : 1 ≤ w) (hne : splitWords e.text ≠ []) :
    chunkCore e (w : ℤ) = (List.range (nChunks e w)).map (chunkAt e w (nChunks e w)) := by
  obtain ⟨hq1, hql, hqu, hcast⟩ := nChunks_spec e w hw hne
  simp only [chunkCore]
  rw [← hcast, Int.toNat_ofNat]
  refine filterMap_eq_map_of_some _ _ _ ?_
  intro i hi
  have hi' : i < nChunks e w := List.mem_range.mp hi
  have hiw : i * w < (splitWords e.text).length := by
    have h2 : (i + 1) * w ≤ nChunks e w * w := Nat.mul_le_mul_right _ hi'
    have hsw : (i + 1) * w = i * w + w := by ring
    linarith
  have hslice := pySlice_chunk (splitWords e.text) w i hiw
  have hnil := chunk_slice_ne_nil (splitWords e.text) w i hw hiw
  simp only [hslice, List.isEmpty_eq_false.mpr hnil, Bool.false_eq_true, if_false]
  rfl

/-- The Caption Chunker on a non-degenerate entry and non-zero chunk size
returns the chunk loop's list. -/
theorem chunkTimelineEntry_ok (e : Entry) (wpc : ℤ) (hne : splitWords e.text ≠ [])
    (hwpc : wpc ≠ 0) : chunkTimelineEntry e wpc = .ok (chunkCore e wpc) := by
  unfold chunkTimelineEntry
  rw [if_neg (by rw [List.isEmpty_eq_false.mpr hne]; exact Bool.false_ne_true), if_neg hwpc]

/-- The Caption Chunker on an entry with zero words returns it unchanged. -/
theorem chunkTimelineEntry_degenerate (e : Entry) (wpc : ℤ)
    (h : splitWords e.text = []) : chunkTimelineEntry e wpc = .ok [e] := by
  unfold chunkTimelineEntry
  rw [if_pos (by rw [h]; rfl)]

/-- `chunkList` of a non-degenerate entry with `words_per_chunk = w ≥ 1`. -/
theorem chunkList_eq_map (e : Entry) (w : ℕ) (hw : 1 ≤ w) (hne : splitWords e.text ≠ []) :
    chunkList e (w : ℤ) = (List.range (nChunks e w)).map (chunkAt e w (nChunks e w)) := by
  unfold chunkList
  rw [chunkTimelineEntry_ok e _ hne (by exact_mod_cast Nat.one_le_iff_ne_zero.mp hw),
    chunkCore_eq_map e w hw hne]
  rfl

/-- `chunkList` of a degenerate entry. -/
theorem chunkList_degenerate (e : Entry) (wpc : ℤ) (h : splitWords e.text = []) :
    chunkList e wpc = [e] := by
  unfold chunkList
  rw [chunkTimelineEntry_degenerate e wpc h]
  rfl

/-- Joining consecutive `w`-blocks of a list recovers the list, provided the
block count covers its length. -/
theorem join_chunks {α : Type} :
    ∀ (q : ℕ) (l : List α) (w : ℕ), 1 ≤ w → l.length ≤ q * w →
      ((List.range q).map (fun i => (l.drop (i * w)).take w)).flatten = l := by
  intro q
  induction q with
  | zero =>
    intro l w _ hlen
    simp only [Nat.zero_mul, Nat.le_zero] at hlen
    rw [List.length_eq_zero.mp hlen]
    rfl
  | succ q ih =>
    intro l w hw hlen
    rw [List.range_succ_eq_map, List.map_cons, List.flatten_cons, List.map_map]
    have hmap : ∀ i ∈ List.range q,
        ((fun i => (l.drop (i * w)).take w) ∘ Nat.succ) i =
          (fun i => ((l.drop w).drop (i * w)).take w) i := by
      intro i _
      simp only [Function.comp_apply, List.drop_drop]
      rw [show w + i * w = Nat.succ i * w from by rw [Nat.succ_mul]; ring]
    rw [List.map_congr_left hmap]
    have hdrop : (l.drop w).length ≤ q * w := by
      rw [List.length_drop]
      have hq : (q + 1) * w = q * w + w := by ring
      omega
    rw [ih (l.drop w) w hw hdrop]
    simp only [Nat.zero_mul, List.drop_zero]
    exact List.take_append_drop w l

/-- The cursor before segment `0` is where the loop starts. -/
theorem prefixDur_zero (metas : List SegMeta) : prefixDur metas 0 = 0 := rfl

/-- Peeling one segment off the front of the prefix sum. -/
theorem prefixDur_cons (seg : SegMeta) (rest : List SegMeta) (i : ℕ) :
    prefixDur (seg :: rest) (i + 1) = seg.duration_ms + prefixDur rest i := by
  simp [prefixDur, List.take_succ_cons]

/-- The whole prefix sum is the sum of all measured durations. -/
theorem prefixDur_length (metas : List SegMeta) :
    prefixDur metas metas.length = (metas.map SegMeta.duration_ms).sum := by
  simp [prefixDur, List.take_length]

/-- The Segment Durer loop, characterised by prefix sums of the durations. -/
theorem buildTimelineAux_eq (metas : List SegMeta) : ∀ c : ℤ,
    buildTimelineAux c metas = (List.range metas.length).map (fun i =>
      { type? := some ((metas.getD i dMeta).type), text := (metas.getD i dMeta).text,
        start_ms := c + prefixDur metas i,
        end_ms := c + prefixDur metas (i + 1) : Entry }) := by
  induction metas with
  | nil => intro c; rfl
  | cons seg rest ih =>
    intro c
    rw [show buildTimelineAux c (seg :: rest) =
        { type? := some seg.type, text := seg.text,
          start_ms := c, end_ms := c + seg.duration_ms : Entry }
          :: buildTimelineAux (c + seg.duration_ms) rest from rfl]
    rw [List.length_cons, List.range_succ_eq_map, List.map_cons, List.map_map, ih]
    congr 1
    · have h1 : prefixDur (seg :: rest) (0 + 1) = seg.duration_ms := by
        rw [prefixDur_cons, prefixDur_zero, add_zero]
      simp [h1, prefixDur_zero]
    · apply List.map_congr_left
      intro i _
      simp only [Function.comp_apply, List.getD_cons_succ]
      have h2 : prefixDur (seg :: rest) (i + 1) = seg.duration_ms + prefixDur rest i :=
        prefixDur_cons seg rest i
      have h3 : prefixDur (seg :: rest) (i + 1 + 1) = seg.duration_ms + prefixDur rest (i + 1) :=
        prefixDur_cons seg rest (i + 1)
      rw [h2, h3]
      congr 1 <;> ring

/-- C1: the §8 scenario (`"one two three four five"`, `[0, 5000]`,
`words_per_chunk = 2`) does NOT produce the boundaries `[0, 1667]`,
`[1667, 3334]`, `[3334, 5000]` claimed by the spec: the Caption Chunker
emits `[0, 1666]`, `[1666, 3333]`, `[3333, 5000]`, because
`floor(5000/3) = 1666` and `floor(10000/3) = 3333`. -/
theorem c1_counterexample :
    chunkTimelineEntry scenarioEntry 2 =
      .ok [{ type? := some "line", text := "one two".data, start_ms := 0, end_ms := 1666 },
           { type? := some "line", text := "three four".data, start_ms := 1666, end_ms := 3333 },
           { type? := some "line", text := "five".data, start_ms := 3333, end_ms := 5000 }] ∧
    chunkTimelineEntry scenarioEntry 2 ≠
      .ok [{ type? := some "line", text := "one two".data, start_ms := 0, end_ms := 1667 },
           { type? := some "line", text := "three four".data, start_ms := 1667, end_ms := 3334 },
           { type? := some "line", text := "five".data, start_ms := 3334, end_ms := 5000 }] :=
  ⟨by decide, by decide⟩

/-- C1 (amended): for the segment `{text: "one two three four five",
start_ms: 0, end_ms: 5000}` with `words_per_chunk = 2`, the Caption Chunker
returns exactly three chunks with texts `"one two"`, `"three four"`,
`"five"` and millisecond boundaries `[0, 1666]`, `[1666, 3333]`,
`[3333, 5000]`, as computed by the literal floor-based allocation formula. -/
theorem c1_amended_scenario :
    chunkTimelineEntry scenarioEntry 2 =
      .ok [{ type? := some "line", text := "one two".data, start_ms := 0, end_ms := 1666 },
           { type? := some "line", text := "three four".data, start_ms := 1666, end_ms := 3333 },
           { type? := some "line", text := "five".data, start_ms := 3333, end_ms := 5000 }] := by
  decide

/-- C2: for every non-empty segment sequence, the Segment Durer produces one
timeline entry per segment, in input order (same role and text index by
index); the first entry starts at `0`; each entry starts where the previous
one ends; and the last entry ends at the sum of all measured durations. -/
theorem c2_segment_durer_contiguous (metas : List SegMeta) (hne : metas ≠ []) :
    (buildTimeline metas).length = metas.length ∧
    (∀ i, i < metas.length →
      ((buildTimeline metas).getD i dEntry).type? = some ((metas.getD i dMeta).type) ∧
      ((buildTimeline metas).getD i dEntry).text = (metas.getD i dMeta).text) ∧
    ((buildTimeline metas).head?.map Entry.start_ms = some 0) ∧
    (∀ i, i + 1 < (buildTimeline metas).length →
      ((buildTimeline metas).getD (i + 1) dEntry).start_ms =
        ((buildTimeline metas).getD i dEntry).end_ms) ∧
    ((buildTimeline metas).getLast?.map Entry.end_ms =
      some ((metas.map SegMeta.duration_ms).sum)) := by
  have hbt : buildTimeline metas = (List.range metas.length).map (fun i =>
      { type? := some ((metas.getD i dMeta).type), text := (metas.getD i dMeta).text,
        start_ms := 0 + prefixDur metas i,
        end_ms := 0 + prefixDur metas (i + 1) : Entry }) := by
    rw [buildTimeline, buildTimelineAux_eq metas 0]
  obtain ⟨k, hk⟩ : ∃ k, metas.length = k + 1 :=
    Nat.exists_eq_succ_of_ne_zero (fun h0 => hne (List.length_eq_zero.mp h0))
  refine ⟨?_, ?_, ?_, ?_, ?_⟩
  · rw [hbt, List.length_map, List.length_range]
  · intro i hi
    rw [hbt, getD_map_range _ _ _ hi]
    exact ⟨rfl, rfl⟩
  · rw [hbt, hk, List.range_succ_eq_map, List.map_cons, List.head?_cons]
    simp [prefixDur_zero]
  · intro i hi
    rw [hbt, List.length_map, List.length_range] at hi
    rw [hbt, getD_map_range _ _ _ hi, getD_map_range _ _ _ (by omega)]
  · rw [hbt, hk, List.range_succ, List.map_append, List.map_cons, List.map_nil,
      List.getLast?_concat]
    have : prefixDur metas (k + 1) = (metas.map SegMeta.duration_ms).sum := by
      rw [← hk, prefixDur_length]
    simp [this]

/-- C2 witness: the contiguity theorem applied to a concrete three-segment
input. -/
theorem c2_witness :
    metasW ≠ [] ∧
    ((buildTimeline metasW).length = metasW.length ∧
    (∀ i, i < metasW.length →
      ((buildTimeline metasW).getD i dEntry).type? = some ((metasW.getD i dMeta).type) ∧
      ((buildTimeline metasW).getD i dEntry).text = (metasW.getD i dMeta).text) ∧
    ((buildTimeline metasW).head?.map Entry.start_ms = some 0) ∧
    (∀ i, i + 1 < (buildTimeline metasW).length →
      ((buildTimeline metasW).getD (i + 1) dEntry).start_ms =
        ((buildTimeline metasW).getD i dEntry).end_ms) ∧
    ((buildTimeline metasW).getLast?.map Entry.end_ms =
      some ((metasW.map SegMeta.duration_ms).sum))) :=
  ⟨by decide, c2_segment_durer_contiguous metasW (by decide)⟩


/-- The first chunk starts at the segment's start. -/
theorem chunkAt_start_zero (e : Entry) (w q : ℕ) :
    (chunkAt e w q 0).start_ms = e.start_ms := by
  simp [chunkAt, truncDiv, Int.zero_tdiv]

/-- The last chunk (index `q - 1` out of `q ≥ 1`) ends at the segment's end. -/
theorem chunkAt_end_last (e : Entry) (w q : ℕ) (hq : 1 ≤ q) :
    (chunkAt e w q (q - 1)).end_ms = e.end_ms := by
  have hq0 : (q : ℤ) ≠ 0 := by exact_mod_cast Nat.one_le_iff_ne_zero.mp hq
  have hcast : ((q - 1 : ℕ) : ℤ) + 1 = (q : ℤ) := by
    have h1 : ((q - 1 : ℕ) : ℤ) = (q : ℤ) - 1 := by push_cast [hq]; ring
    rw [h1]; ring
  show e.start_ms +
      truncDiv ((((q - 1 : ℕ) : ℤ) + 1) * (e.end_ms - e.start_ms)) (q : ℤ) = e.end_ms
  rw [hcast, truncDiv_mul_cancel _ hq0]
  ring

/-- Consecutive chunks are contiguous: chunk `i` ends where `i + 1` starts. -/
theorem chunkAt_contiguous (e : Entry) (w q i : ℕ) :
    (chunkAt e w q (i + 1)).start_ms = (chunkAt e w q i).end_ms := by
  have hc : ((i + 1 : ℕ) : ℤ) = (i : ℤ) + 1 := by push_cast; ring
  show e.start_ms + truncDiv (((i + 1 : ℕ) : ℤ) * (e.end_ms - e.start_ms)) (q : ℤ) =
    e.start_ms + truncDiv (((i : ℤ) + 1) * (e.end_ms - e.start_ms)) (q : ℤ)
  rw [hc]

/-- Every chunk of a segment with a non-negative span has `start ≤ end`. -/
theorem chunkAt_ordered (e : Entry) (w q i : ℕ) (hq : 1 ≤ q)
    (hT : e.start_ms ≤ e.end_ms) :
    (chunkAt e w q i).start_ms ≤ (chunkAt e w q i).end_ms := by
  have hq0 : (0 : ℤ) < (q : ℤ) := by exact_mod_cast hq
  have hT0 : (0 : ℤ) ≤ e.end_ms - e.start_ms := by linarith
  have h0 : (0 : ℤ) ≤ (i : ℤ) * (e.end_ms - e.start_ms) :=
    mul_nonneg (Int.natCast_nonneg i) hT0
  have h1 : (i : ℤ) * (e.end_ms - e.start_ms) ≤ ((i : ℤ) + 1) * (e.end_ms - e.start_ms) := by
    nlinarith
  exact add_le_add_left (truncDiv_le_truncDiv h0 h1 hq0) e.start_ms

/-- C3: for every segment with `end_ms ≥ start_ms` and every
`words_per_chunk ≥ 1`, the chunk list is a partition of the segment's
interval: non-empty, first chunk starts at the segment start, last chunk
ends at the segment end, consecutive chunks are contiguous, and every chunk
has `end_ms ≥ start_ms`. -/
theorem c3_chunk_partition (e : Entry) (wpc : ℤ) (hw : 1 ≤ wpc)
    (hT : e.start_ms ≤ e.end_ms) :
    chunkList e wpc ≠ [] ∧
    ((chunkList e wpc).head?.map Entry.start_ms = some e.start_ms) ∧
    ((chunkList e wpc).getLast?.map Entry.end_ms = some e.end_ms) ∧
    (∀ i, i + 1 < (chunkList e wpc).length →
      ((chunkList e wpc).getD (i + 1) dEntry).start_ms =
        ((chunkList e wpc).getD i dEntry).end_ms) ∧
    (∀ c ∈ chunkList e wpc, c.start_ms ≤ c.end_ms) := by
  by_cases hdeg : splitWords e.text = []
  · rw [chunkList_degenerate e wpc hdeg]
    refine ⟨by simp, by simp, by simp, ?_, ?_⟩
    · intro i hi
      simp only [List.length_singleton] at hi
      omega
    · intro c hc
      rw [List.mem_singleton] at hc
      subst hc
      exact hT
  · obtain ⟨w, rfl⟩ : ∃ w : ℕ, wpc = (w : ℤ) :=
      ⟨wpc.toNat, (Int.toNat_of_nonneg (by linarith)).symm⟩
    have hw' : 1 ≤ w := by exact_mod_cast hw
    obtain ⟨hq1, hql, hqu, hcast⟩ := nChunks_spec e w hw' hdeg
    rw [chunkList_eq_map e w hw' hdeg]
    obtain ⟨k, hk⟩ : ∃ k, nChunks e w = k + 1 :=
      Nat.exists_eq_succ_of_ne_zero (Nat.one_le_iff_ne_zero.mp hq1)
    refine ⟨?_, ?_, ?_, ?_, ?_⟩
    · intro hnil
      have := congrArg List.length hnil
      rw [List.length_map, List.length_range, hk] at this
      exact Nat.succ_ne_zero k this
    · rw [hk, List.range_succ_eq_map, List.map_cons, List.head?_cons, Option.map_some',
        chunkAt_start_zero]
    · rw [hk, List.range_succ, List.map_append, List.map_cons, List.map_nil,
        List.getLast?_concat, Option.map_some']
      exact congrArg some (chunkAt_end_last e w (k + 1) (Nat.le_add_left 1 k))
    · intro i hi
      rw [List.length_map, List.length_range] at hi
      rw [getD_map_range _ _ _ hi, getD_map_range _ _ _ (by omega),
        chunkAt_contiguous]
    · intro c hc
      obtain ⟨i, _, rfl⟩ := List.mem_map.mp hc
      exact chunkAt_ordered e w _ i hq1 hT

/-- C3 witness: the partition theorem applied to the §8 scenario segment
with `words_per_chunk = 2`. -/
theorem c3_witness :
    (1 : ℤ) ≤ 2 ∧ scenarioEntry.start_ms ≤ scenarioEntry.end_ms ∧
    (chunkList scenarioEntry 2 ≠ [] ∧
    ((chunkList scenarioEntry 2).head?.map Entry.start_ms = some scenarioEntry.start_ms) ∧
    ((chunkList scenarioEntry 2).getLast?.map Entry.end_ms = some scenarioEntry.end_ms) ∧
    (∀ i, i + 1 < (chunkList scenarioEntry 2).length →
      ((chunkList scenarioEntry 2).getD (i + 1) dEntry).start_ms =
        ((chunkList scenarioEntry 2).getD i dEntry).end_ms) ∧
    (∀ c ∈ chunkList scenarioEntry 2, c.start_ms ≤ c.end_ms)) :=
  ⟨by decide, by decide, c3_chunk_partition scenarioEntry 2 (by decide) (by decide)⟩

/-- Every chunk index below the chunk count starts inside the word list. -/
theorem lt_len_of_lt_nChunks (e : Entry) (w i : ℕ) (hw : 1 ≤ w)
    (hne : splitWords e.text ≠ []) (hi : i < nChunks e w) :
    i * w < (splitWords e.text).length := by
  obtain ⟨_, _, hqu, _⟩ := nChunks_spec e w hw hne
  have h2 : (i + 1) * w ≤ nChunks e w * w := Nat.mul_le_mul_right _ hi
  have hsw : (i + 1) * w = i * w + w := by ring
  linarith

/-- C4: for every segment with at least one word and every
`words_per_chunk ≥ 1`, splitting each chunk's text back into words and
concatenating, in chunk order, reproduces the segment's whitespace-split
word sequence exactly. -/
theorem c4_word_roundtrip (e : Entry) (wpc : ℤ) (hw : 1 ≤ wpc)
    (hne : splitWords e.text ≠ []) :
    ((chunkList e wpc).map (fun c => splitWords c.text)).flatten = splitWords e.text := by
  obtain ⟨w, rfl⟩ : ∃ w : ℕ, wpc = (w : ℤ) :=
    ⟨wpc.toNat, (Int.toNat_of_nonneg (by linarith)).symm⟩
  have hw' : 1 ≤ w := by exact_mod_cast hw
  obtain ⟨hq1, hql, hqu, hcast⟩ := nChunks_spec e w hw' hne
  rw [chunkList_eq_map e w hw' hne, List.map_map]
  have hmap : ∀ i ∈ List.range (nChunks e w),
      ((fun c => splitWords c.text) ∘ chunkAt e w (nChunks e w)) i =
        (fun i => ((splitWords e.text).drop (i * w)).take w) i := by
    intro i hi
    have hiw := lt_len_of_lt_nChunks e w i hw' hne (List.mem_range.mp hi)
    simp only [Function.comp_apply]
    show splitWords (joinWords (((splitWords e.text).drop (i * w)).take w)) = _
    apply splitWords_joinWords
    · intro u hu
      exact splitWords_isWord e.text u (List.mem_of_mem_drop (List.mem_of_mem_take hu))
    · exact chunk_slice_ne_nil _ w i hw' hiw
  rw [List.map_congr_left hmap]
  exact join_chunks (nChunks e w) _ w hw' hql

/-- C4 witness: the round trip at the §8 scenario segment with
`words_per_chunk = 2`. -/
theorem c4_witness :
    (1 : ℤ) ≤ 2 ∧ splitWords scenarioEntry.text ≠ [] ∧
    ((chunkList scenarioEntry 2).map (fun c => splitWords c.text)).flatten =
      splitWords scenarioEntry.text :=
  ⟨by decide, by decide, c4_word_roundtrip scenarioEntry 2 (by decide) (by decide)⟩

/-- C5: for every segment and every `words_per_chunk ≥ 1`, the chunk count
is `ceil(word_count / words_per_chunk)` when the text has at least one word,
and exactly `1` when it has none. -/
theorem c5_chunk_count (e : Entry) (wpc : ℤ) (hw : 1 ≤ wpc) :
    (chunkList e wpc).length =
      if splitWords e.text = [] then 1
      else (⌈((splitWords e.text).length : ℚ) / (wpc : ℚ)⌉).toNat := by
  by_cases hdeg : splitWords e.text = []
  · rw [chunkList_degenerate e wpc hdeg, if_pos hdeg]
    rfl
  · rw [if_neg hdeg]
    obtain ⟨w, rfl⟩ : ∃ w : ℕ, wpc = (w : ℤ) :=
      ⟨wpc.toNat, (Int.toNat_of_nonneg (by linarith)).symm⟩
    have hw' : 1 ≤ w := by exact_mod_cast hw
    obtain ⟨hq1, _, _, hcast⟩ := nChunks_spec e w hw' hdeg
    rw [chunkList_eq_map e w hw' hdeg, List.length_map, List.length_range]
    have hmax : max 1 (ceilDiv ((splitWords e.text).length : ℤ) (w : ℤ)) =
        ceilDiv ((splitWords e.text).length : ℤ) (w : ℤ) :=
      max_eq_right (ceilDiv_bounds _ w hw' (List.length_pos.mpr hdeg)).1
    have hrat : ((nChunks e w : ℕ) : ℤ) =
        ⌈((splitWords e.text).length : ℚ) / ((w : ℤ) : ℚ)⌉ := by
      rw [hcast, hmax, ceilDiv_eq_rat_ceil _ _ (by exact_mod_cast hw')]
    rw [show nChunks e w = (((nChunks e w : ℕ) : ℤ)).toNat from (Int.toNat_ofNat _).symm,
      hrat]

/-- C5 witness: the chunk-count theorem at the §8 scenario segment
(`5` words, `words_per_chunk = 2`, `ceil(5/2) = 3` chunks). -/
theorem c5_witness :
    (1 : ℤ) ≤ 2 ∧
    (chunkList scenarioEntry 2).length =
      if splitWords scenarioEntry.text = [] then 1
      else (⌈((splitWords scenarioEntry.text).length : ℚ) / ((2 : ℤ) : ℚ)⌉).toNat :=
  ⟨by decide, c5_chunk_count scenarioEntry 2 (by decide)⟩

/-- C9 counterexample: on an entry with empty text the Caption Chunker
returns that entry itself as the single "chunk", whose text is empty — not
a non-empty word group. -/
theorem c9_counterexample :
    chunkTimelineEntry emptyEntry 3 = .ok [emptyEntry] ∧ emptyEntry.text = [] :=
  ⟨by decide, by decide⟩

/-- C9 (amended): every chunk emitted for an entry with at least one word
has non-empty text that is a canonical word group (splitting it into words
and joining them with single spaces reproduces it, so it carries no leading,
trailing or doubled whitespace).  Entries with zero words are returned
unchanged, keeping their original — possibly empty or whitespace-only —
text. -/
theorem c9_amended_chunk_text (e : Entry) (wpc : ℤ) (hw : 1 ≤ wpc)
    (hne : splitWords e.text ≠ []) :
    ∀ c ∈ chunkList e wpc, c.text ≠ [] ∧ joinWords (splitWords c.text) = c.text := by
  obtain ⟨w, rfl⟩ : ∃ w : ℕ, wpc = (w : ℤ) :=
    ⟨wpc.toNat, (Int.toNat_of_nonneg (by linarith)).symm⟩
  have hw' : 1 ≤ w := by exact_mod_cast hw
  rw [chunkList_eq_map e w hw' hne]
  intro c hc
  obtain ⟨i, hi, rfl⟩ := List.mem_map.mp hc
  have hiw := lt_len_of_lt_nChunks e w i hw' hne (List.mem_range.mp hi)
  have hwords : ∀ u ∈ ((splitWords e.text).drop (i * w)).take w, IsWord u :=
    fun u hu => splitWords_isWord e.text u (List.mem_of_mem_drop (List.mem_of_mem_take hu))
  have hsne : ((splitWords e.text).drop (i * w)).take w ≠ [] :=
    chunk_slice_ne_nil _ w i hw' hiw
  refine ⟨joinWords_ne_nil _ hwords hsne, ?_⟩
  show joinWords (splitWords (joinWords (((splitWords e.text).drop (i * w)).take w))) =
    joinWords (((splitWords e.text).drop (i * w)).take w)
  rw [splitWords_joinWords _ hwords hsne]

/-- C9 witness: the amended text invariant at the five-word segment with
`words_per_chunk = 2`. -/
theorem c9_witness :
    (1 : ℤ) ≤ 2 ∧ splitWords fiveWordEntry.text ≠ [] ∧
    ∀ c ∈ chunkList fiveWordEntry 2,
      c.text ≠ [] ∧ joinWords (splitWords c.text) = c.text :=
  ⟨by decide, by decide, c9_amended_chunk_text fiveWordEntry 2 (by decide) (by decide)⟩

/-- C10: for every entry with at least one word whose record has no
role/type key and every `words_per_chunk ≥ 1`, the Caption Chunker does not
fail, and every chunk it emits carries the defaulted role `"line"`. -/
theorem c10_default_role (e : Entry) (wpc : ℤ) (hw : 1 ≤ wpc)
    (hnone : e.type? = none) (hne : splitWords e.text ≠ []) :
    chunkTimelineEntry e wpc = .ok (chunkList e wpc) ∧
    ∀ c ∈ chunkList e wpc, c.type? = some "line" := by
  have hwz : wpc ≠ 0 := by intro h; rw [h] at hw; exact absurd hw (by decide)
  have hcl : chunkList e wpc = chunkCore e wpc := by
    unfold chunkList
    rw [chunkTimelineEntry_ok e wpc hne hwz]
    rfl
  refine ⟨by rw [hcl, chunkTimelineEntry_ok e wpc hne hwz], ?_⟩
  obtain ⟨w, rfl⟩ : ∃ w : ℕ, wpc = (w : ℤ) :=
    ⟨wpc.toNat, (Int.toNat_of_nonneg (by linarith)).symm⟩
  have hw' : 1 ≤ w := by exact_mod_cast hw
  rw [chunkList_eq_map e w hw' hne]
  intro c hc
  obtain ⟨i, _, rfl⟩ := List.mem_map.mp hc
  show some (e.type?.getD "line") = some "line"
  rw [hnone]
  rfl

/-- C10 witness: the defaulted role at a three-word entry lacking a type
key, with `words_per_chunk = 1`. -/
theorem c10_witness :
    (1 : ℤ) ≤ 1 ∧ untypedEntry.type? = none ∧ splitWords untypedEntry.text ≠ [] ∧
    (chunkTimelineEntry untypedEntry 1 = .ok (chunkList untypedEntry 1) ∧
      ∀ c ∈ chunkList untypedEntry 1, c.type? = some "line") :=
  ⟨by decide, by decide, by decide,
    c10_default_role untypedEntry 1 (by decide) (by decide) (by decide)⟩

/-- C6 counterexample: with `words_per_chunk = -1` on a five-word segment
the Caption Chunker does not fail at all: it silently returns a single
chunk that drops the last word. -/
theorem c6_counterexample :
    chunkTimelineEntry fiveWordEntry (-1) =
      .ok [{ type? := some "line", text := "a b c d".data,
             start_ms := 0, end_ms := 1000 }] ∧
    chunkTimelineEntry fiveWordEntry (-1) ≠ .error .zeroDivisionError ∧
    chunkTimelineEntry fiveWordEntry (-1) ≠ .error .keyError :=
  ⟨by decide, by decide, by decide⟩

/-- C6 (amended): the Caption Chunker performs no validation of
`words_per_chunk`.  On an entry with at least one word, `words_per_chunk = 0`
raises `ZeroDivisionError` (not an `InvalidChunkSize` error), and a negative
`words_per_chunk` does not fail: it yields `[]` when the word count is at
most `-words_per_chunk`, and otherwise one single chunk spanning the full
interval whose text drops the last `-words_per_chunk` words.  (An entry with
zero words is returned unchanged for every `words_per_chunk`.) -/
theorem c6_amended_no_validation (e : Entry) (wpc : ℤ) (hw : wpc ≤ 0)
    (hne : splitWords e.text ≠ []) :
    chunkTimelineEntry e wpc =
      if wpc = 0 then .error .zeroDivisionError
      else .ok (if ((splitWords e.text).length : ℤ) + wpc ≤ 0 then []
        else [{ type? := some (e.type?.getD "line"),
                text := joinWords ((splitWords e.text).take
                  ((((splitWords e.text).length : ℤ) + wpc).toNat)),
                start_ms := e.start_ms, end_ms := e.end_ms }]) := by
  by_cases hz : wpc = 0
  · rw [if_pos hz, hz]
    unfold chunkTimelineEntry
    rw [if_neg (by rw [List.isEmpty_eq_false.mpr hne]; exact Bool.false_ne_true),
      if_pos rfl]
  · have hlt : wpc < 0 := lt_of_le_of_ne hw hz
    have hm0 : (0 : ℤ) ≤ ((splitWords e.text).length : ℤ) := Int.natCast_nonneg _
    have hslice : pySlice (splitWords e.text) 0 (min wpc ((splitWords e.text).length : ℤ)) =
        (splitWords e.text).take ((((splitWords e.text).length : ℤ) + wpc).toNat) := by
      rw [min_eq_left (le_trans (le_of_lt hlt) hm0)]
      unfold pySlice pySliceIdx
      rw [if_neg (lt_irrefl 0), if_pos hlt]
      simp
    have hmax1 : max 1 (ceilDiv ((splitWords e.text).length : ℤ) wpc) = 1 :=
      max_eq_left (le_trans (ceilDiv_nonpos _ wpc hlt) (by norm_num))
    rw [if_neg hz, chunkTimelineEntry_ok e wpc hne hz]
    congr 1
    simp only [chunkCore]
    rw [hmax1, show ((1 : ℤ)).toNat = 1 from rfl, show List.range 1 = [0] from by decide]
    rcases le_or_lt (((splitWords e.text).length : ℤ) + wpc) 0 with hle | hgt
    · rw [if_pos hle]
      refine (List.filterMap_cons_none ?_).trans (List.filterMap_nil _)
      simp only [Nat.cast_zero, zero_mul, zero_add, one_mul, hslice,
        Int.toNat_of_nonpos hle, List.take_zero, List.isEmpty_nil, if_true]
    · rw [if_neg (not_le.mpr hgt)]
      have htne : (splitWords e.text).take
          ((((splitWords e.text).length : ℤ) + wpc).toNat) ≠ [] := by
        intro h
        rcases List.take_eq_nil_iff.mp h with h1 | h2
        · rw [Int.toNat_eq_zero] at h1
          linarith
        · exact hne h2
      refine (List.filterMap_cons_some ?_).trans (by rw [List.filterMap_nil])
      simp only [Nat.cast_zero, zero_mul, zero_add, one_mul, hslice,
        List.isEmpty_eq_false.mpr htne, Bool.false_eq_true, if_false]
      have hstart : truncDiv 0 1 = 0 := truncDiv_zero_left 1
      have hend : truncDiv (e.end_ms - e.start_ms) 1 = e.end_ms - e.start_ms :=
        Int.tdiv_one _
      rw [hstart, hend]
      simp only [Option.some.injEq, Entry.mk.injEq]
      refine ⟨trivial, trivial, by ring, by ring⟩

/-- C6 witness: the amended behavior at the five-word segment with
`words_per_chunk = -1` (one chunk, last word dropped, no error). -/
theorem c6_witness :
    (-1 : ℤ) ≤ 0 ∧ splitWords fiveWordEntry.text ≠ [] ∧
    chunkTimelineEntry fiveWordEntry (-1) =
      (if (-1 : ℤ) = 0 then .error .zeroDivisionError
      else .ok (if ((splitWords fiveWordEntry.text).length : ℤ) + (-1) ≤ 0 then []
        else [{ type? := some (fiveWordEntry.type?.getD "line"),
                text := joinWords ((splitWords fiveWordEntry.text).take
                  ((((splitWords fiveWordEntry.text).length : ℤ) + (-1)).toNat)),
                start_ms := fiveWordEntry.start_ms,
                end_ms := fiveWordEntry.end_ms }])) :=
  ⟨by decide, by decide, c6_amended_no_validation fiveWordEntry (-1) (by decide) (by decide)⟩

/-- One step of the Timeline Builder when the entry's type key is present. -/
theorem buildChunkedTimeline_cons (e : Entry) (rest : List Entry) (t : String)
    (ht : e.type? = some t) :
    buildChunkedTimeline (e :: rest) =
      (do
        let cs ← chunkTimelineEntry e (if t = "hook" ∨ t = "closer" then 4 else 3)
        let rest2 ← buildChunkedTimeline rest
        Except.ok (cs ++ rest2)) := by
  simp only [buildChunkedTimeline]
  rw [ht]
  rfl

/-- The Caption Chunker never errors when `words_per_chunk ≠ 0`, and its
payload is `chunkList`. -/
theorem chunkTimelineEntry_eq_ok_chunkList (e : Entry) (wpc : ℤ) (hwz : wpc ≠ 0) :
    chunkTimelineEntry e wpc = .ok (chunkList e wpc) := by
  by_cases hdeg : splitWords e.text = []
  · rw [chunkTimelineEntry_degenerate e wpc hdeg, chunkList_degenerate e wpc hdeg]
  · have hcl : chunkList e wpc = chunkCore e wpc := by
      unfold chunkList
      rw [chunkTimelineEntry_ok e wpc hdeg hwz]
      rfl
    rw [chunkTimelineEntry_ok e wpc hdeg hwz, hcl]

/-- C7: the Timeline Builder runs the Caption Chunker with
`words_per_chunk = 4` on entries whose role is `hook` or `closer` and with
`words_per_chunk = 3` on all others, concatenating the chunk lists in entry
order; consequently a 12-word hook of duration 6000 ms yields 3 chunks while
a 12-word line of the same duration yields 4 chunks. -/
theorem c7_timeline_builder_policy :
    (∀ tl : List Entry, (∀ e ∈ tl, e.type?.isSome = true) →
      buildChunkedTimeline tl = .ok ((tl.map (fun e =>
        chunkList e (if e.type? = some "hook" ∨ e.type? = some "closer"
          then 4 else 3))).flatten)) ∧
    buildChunkedTimeline [hook12, line12] =
      .ok (chunkList hook12 4 ++ chunkList line12 3) ∧
    (chunkList hook12 4).length = 3 ∧
    (chunkList line12 3).length = 4 := by
  refine ⟨?_, by decide, by decide, by decide⟩
  intro tl
  induction tl with
  | nil => intro _; rfl
  | cons e rest ih =>
    intro h
    obtain ⟨t, ht⟩ := Option.isSome_iff_exists.mp (h e (List.mem_cons_self e rest))
    have hwz : (if t = "hook" ∨ t = "closer" then (4 : ℤ) else 3) ≠ 0 := by
      by_cases hc : t = "hook" ∨ t = "closer"
      · rw [if_pos hc]; decide
      · rw [if_neg hc]; decide
    rw [buildChunkedTimeline_cons e rest t ht,
      chunkTimelineEntry_eq_ok_chunkList e _ hwz,
      ih (fun x hx => h x (List.mem_cons_of_mem _ hx))]
    simp only [List.map_cons, List.flatten_cons, ht, Option.some.injEq]
    rfl

/-- C7 witness: the policy equation applied to the concrete two-entry
timeline `[hook12, line12]`. -/
theorem c7_witness :
    (∀ e ∈ [hook12, line12], e.type?.isSome = true) ∧
    buildChunkedTimeline [hook12, line12] =
      .ok (([hook12, line12].map (fun e =>
        chunkList e (if e.type? = some "hook" ∨ e.type? = some "closer"
          then 4 else 3))).flatten) :=
  ⟨by decide, (c7_timeline_builder_policy.1) [hook12, line12] (by decide)⟩

/-- C8 counterexample: a segment with a negative measured duration does not
make the Segment Durer fail: it produces an ordinary timeline entry whose
interval is inverted (`end_ms < start_ms`). -/
theorem c8_counterexample :
    buildTimeline [badMeta] =
      [{ type? := some "line", text := "bad".data, start_ms := 0, end_ms := -5 }] ∧
    ((buildTimeline [badMeta]).getD 0 dEntry).end_ms <
      ((buildTimeline [badMeta]).getD 0 dEntry).start_ms :=
  ⟨by decide, by decide⟩

/-- C8 (amended): the Segment Durer performs no duration validation and
never fails: an empty input yields an empty output, every input yields
exactly one entry per segment, and a single segment always yields the entry
`[0, duration_ms]` — so a negative duration flows through as an inverted
interval instead of an `InvalidSegmentDuration` error. -/
theorem c8_amended_no_validation :
    buildTimeline [] = [] ∧
    (∀ metas : List SegMeta, (buildTimeline metas).length = metas.length) ∧
    (∀ m : SegMeta, buildTimeline [m] =
      [{ type? := some m.type, text := m.text, start_ms := 0, end_ms := m.duration_ms }]) := by
  refine ⟨rfl, ?_, ?_⟩
  · intro metas
    rw [buildTimeline, buildTimelineAux_eq metas 0, List.length_map, List.length_range]
  · intro m
    simp [buildTimeline, buildTimelineAux]
